import Mathlib

set_option maxRecDepth 100000

/-!
Shallow embedding of `src/kmod/term_manage.c` (wifidog-ng kernel module):
the terminal registry — a hash table of `struct terminal` records keyed by
MAC address, per-record expiry timers, authentication-flag operations, and
the `/proc` control channel write handler.

Machine integers are modelled as `Nat`; heap pointers are modelled by a
per-record allocation identity `id` (fresh ids are handed out by the state's
`nextId` counter, standing for distinct `kmem_cache` allocations).  The
random hash seed `hash_rnd` together with `jhash_1word` is modelled as an
arbitrary function parameter `jh : Nat → Nat` applied to the 32-bit key the
code extracts from the MAC; the code's masking `& (TERM_HASH_SIZE - 1)` is
kept explicitly as `% TERM_HASH_SIZE`.
-/

namespace TermManage

/-- `TERM_TTL` from term_manage.c: idle time-to-live, in seconds. -/
def TERM_TTL : Nat := 60

/-- `TERM_HASH_SIZE` from term_manage.c: `1 << 8` hash buckets. -/
def TERM_HASH_SIZE : Nat := 256

/-- Kernel `HZ` (jiffies per second); a fixed positive configuration
constant whose concrete value is irrelevant to every claim. -/
def HZ : Nat := 100

/-- Modelled from the spec: `term_manage.h` (not under `src/`) defines the
flag bit `TERM_AUTHED` (device currently permitted); the spec describes the
`flags` field as a set of independent boolean bits, so `TERM_AUTHED` and
`TERM_ACTIVE` are modelled as distinct single-bit masks. -/
def TERM_AUTHED : Nat := 1

/-- Modelled from the spec: `term_manage.h` (not under `src/`) defines the
flag bit `TERM_ACTIVE` (device recently active); see `TERM_AUTHED`. -/
def TERM_ACTIVE : Nat := 2

/-- A MAC address: a list of byte values (6 bytes for real addresses). -/
abbrev Mac := List Nat

/-- The `flow` counters of `struct terminal` (aggregate rx/tx bytes). -/
structure Flow where
  rx : Nat
  tx : Nat
deriving DecidableEq

/-- `struct terminal` from term_manage.h, as used by term_manage.c.
`id` stands for the record's heap address (allocation identity); `expires`
is the timer's programmed expiry time in jiffies.  The struct has both a
`flags` word and a separate `active` word — term_manage.c reads and writes
both (`term->flags`, `term->active`). -/
structure Terminal where
  id : Nat
  mac : Mac
  ip : Nat
  flags : Nat
  active : Nat
  flow : Flow
  j : Nat
  expires : Nat
deriving DecidableEq

/-- The registry state: the global `term_mac_hash_table` (a list of
buckets, each an `hlist` of records, newest first), the set of record ids
whose `expires` timer is currently pending, and the allocation counter
producing fresh record identities. -/
structure TermState where
  table : List (List Terminal)
  armed : List Nat
  nextId : Nat
deriving DecidableEq

/-- The 32-bit key `get_unaligned((u32 *)(mac + 2))` that `term_mac_hash`
feeds to `jhash_1word`: bytes 2..5 of the MAC (1 byte of OUI, 3 of NIC). -/
def term_mac_key (mac : Mac) : Nat :=
  mac.getD 2 0 + 256 * mac.getD 3 0 + 65536 * mac.getD 4 0 +
    16777216 * mac.getD 5 0

/-- `term_mac_hash`: `jhash_1word(key, hash_rnd) & (TERM_HASH_SIZE - 1)`.
`jh` stands for `jhash_1word · hash_rnd` (the seed is random, so the hash
is an arbitrary function of the key); masking by the power-of-two size is
`% TERM_HASH_SIZE`. -/
def term_mac_hash (jh : Nat → Nat) (mac : Mac) : Nat :=
  jh (term_mac_key mac) % TERM_HASH_SIZE

/-- The bucket `term_mac_hash_table[h]`. -/
def bucketOf (s : TermState) (h : Nat) : List Terminal :=
  s.table.getD h []

/-- All live records, in bucket-traversal order (the order the seq_file
read side of `/proc/wifidog/term` enumerates them in `term_seq_show`). -/
def allTerms (s : TermState) : List Terminal :=
  s.table.flatten

/-- The ids (heap addresses) of all live records. -/
def allIds (s : TermState) : List Nat :=
  (allTerms s).map (·.id)

/-- Dereference a record pointer: the live record whose allocation identity
is `p`, if any. -/
def deref (s : TermState) (p : Nat) : Option Terminal :=
  (allTerms s).find? (fun t => t.id == p)

/-- `find_term_by_mac`: walk the key's bucket under the read lock and
return a pointer to the first record whose `mac` matches
(`ether_addr_equal`), or NULL (`none`). -/
def find_term_by_mac (jh : Nat → Nat) (s : TermState) (mac : Mac) : Option Nat :=
  ((bucketOf s (term_mac_hash jh mac)).find? (fun t => t.mac == mac)).map (·.id)

/-- The flag update performed by `term_mark` on the matched record:
`term->flags &= ~TERM_AUTHED; if (authed) term->flags |= TERM_AUTHED;`.
Clearing the single-bit mask is `flags - (flags &&& TERM_AUTHED)`. -/
def setAuthedFlags (flags authed : Nat) : Nat :=
  if authed ≠ 0 then (flags - (flags &&& TERM_AUTHED)) ||| TERM_AUTHED
  else flags - (flags &&& TERM_AUTHED)

/-- The bucket traversal of `term_mark`: update the first record matching
`mac` and stop; `none` if no record matches. -/
def markInBucket (bucket : List Terminal) (mac : Mac) (authed : Nat) :
    Option (List Terminal) :=
  match bucket with
  | [] => none
  | t :: rest =>
    if t.mac == mac then
      some ({ t with flags := setAuthedFlags t.flags authed } :: rest)
    else
      (markInBucket rest mac authed).map (t :: ·)

/-- `term_mark`: under the write lock, find the record for `mac` in its
bucket and rewrite its `TERM_AUTHED` bit; returns 0 on success, -1 if the
mac is not in the table. -/
def term_mark (jh : Nat → Nat) (s : TermState) (mac : Mac) (authed : Nat) :
    TermState × Int :=
  let h := term_mac_hash jh mac
  match markInBucket (bucketOf s h) mac authed with
  | some bucket => ({ s with table := s.table.set h bucket }, 0)
  | none => (s, -1)

/-- `term_mark_authed(mac)`: `term_mark(mac, TERM_AUTHED)`. -/
def term_mark_authed (jh : Nat → Nat) (s : TermState) (mac : Mac) :
    TermState × Int :=
  term_mark jh s mac TERM_AUTHED

/-- `term_mark_denied(mac)`: `term_mark(mac, 0)`. -/
def term_mark_denied (jh : Nat → Nat) (s : TermState) (mac : Mac) :
    TermState × Int :=
  term_mark jh s mac 0

/-- `term_is_authd`: look up the mac, and return 1 exactly when a record
was found and its `flags` word has `TERM_AUTHED` set; otherwise 0. -/
def term_is_authd (jh : Nat → Nat) (s : TermState) (mac : Mac) : Nat :=
  match (find_term_by_mac jh s mac).bind (deref s) with
  | some t => if t.flags &&& TERM_AUTHED ≠ 0 then 1 else 0
  | none => 0

/-- `term_clear`: under the write lock, for every bucket `hlist_del` each
record, `del_timer` its expiry timer, and free it. -/
def term_clear (s : TermState) : TermState :=
  { s with
    table := s.table.map (fun _ => [])
    armed := s.armed.filter (fun p => !((allIds s).contains p)) }

/-- `mod_timer` bookkeeping: a fired or fresh timer becomes pending. -/
def armTimer (armed : List Nat) (p : Nat) : List Nat :=
  if p ∈ armed then armed else p :: armed

/-- In-place update through a record pointer: rewrite the record whose id
is `p` wherever it sits in the table. -/
def mapId (table : List (List Terminal)) (p : Nat) (f : Terminal → Terminal) :
    List (List Terminal) :=
  table.map (List.map fun t => if t.id == p then f t else t)

/-- `hlist_del` of the record whose id is `p`, plus the free. -/
def removeId (table : List (List Terminal)) (p : Nat) :
    List (List Terminal) :=
  table.map (List.filter fun t => t.id != p)

/-- `term_timer_refresh`: `mod_timer(&term->expires, jiffies + timeout * HZ)`
— program the record's timer `timeout` seconds from `now` and make it
pending. -/
def term_timer_refresh (s : TermState) (p : Nat) (timeout now : Nat) :
    TermState :=
  { s with
    table := mapId s.table p (fun t => { t with expires := now + timeout * HZ })
    armed := armTimer s.armed p }

/-- `term_timer_timeout`, the timer callback body, fired against the record
pointer `p` at time `now`: if `term->flags & TERM_ACTIVE` is clear, unlink
and free the record (no rearm); otherwise execute
`term->active &= ~TERM_ACTIVE` — note: the code clears the bit in the
separate `active` field, not in `flags` — and rearm for `TERM_TTL`. -/
def term_timer_timeout (s : TermState) (p : Nat) (now : Nat) : TermState :=
  match deref s p with
  | none => s
  | some term =>
    if term.flags &&& TERM_ACTIVE = 0 then
      { s with table := removeId s.table p }
    else
      let s2 := { s with
        table := mapId s.table p
          (fun t => { t with active := t.active - (t.active &&& TERM_ACTIVE) }) }
      term_timer_refresh s2 p TERM_TTL now

/-- A timer expiry event: the kernel removes the timer from the pending set
and runs the callback `term_timer_timeout`. -/
def fire_timer (s : TermState) (p : Nat) (now : Nat) : TermState :=
  term_timer_timeout { s with armed := s.armed.filter (fun q => q != p) } p now

/-- `add_term(mac, ip)`: allocate a zero-filled record
(`kmem_cache_zalloc`, modelled as always succeeding), fill in `j`, `ip`,
`mac`, `setup_timer`, insert it at the head of its bucket under the write
lock, then `term_timer_refresh(term, TERM_TTL)`. -/
def add_term (jh : Nat → Nat) (s : TermState) (mac : Mac) (ip : Nat)
    (now : Nat) : TermState :=
  let h := term_mac_hash jh mac
  let term : Terminal :=
    { id := s.nextId, mac := mac, ip := ip, flags := 0, active := 0,
      flow := ⟨0, 0⟩, j := now, expires := 0 }
  let s2 := { s with
    table := s.table.set h (term :: bucketOf s h)
    nextId := s.nextId + 1 }
  term_timer_refresh s2 s.nextId TERM_TTL now

/-- `term_init`: the empty registry — `TERM_HASH_SIZE` empty buckets, no
pending timers. -/
def term_init : TermState :=
  { table := List.replicate TERM_HASH_SIZE [], armed := [], nextId := 0 }

/-- The record `add_term jh s m ip now` creates, as it sits in the table
once its timer has been programmed: zero-filled (`kmem_cache_zalloc`)
except for `j`, `ip`, `mac`, with the timer due one TTL after `now`. -/
def newRec (s : TermState) (m : Mac) (ip now : Nat) : Terminal :=
  { id := s.nextId, mac := m, ip := ip, flags := 0, active := 0,
    flow := ⟨0, 0⟩, j := now, expires := now + TERM_TTL * HZ }

/-! ### The `/proc` write handler -/

/-- `isspace` for the characters `sscanf` skips before a `%X` conversion. -/
def isSpaceByte (c : Nat) : Bool :=
  c = 32 || (9 ≤ c && c ≤ 13)

/-- Hexadecimal digit bytes accepted by `%hhX`. -/
def isHexByte (c : Nat) : Bool :=
  (48 ≤ c && c ≤ 57) || (65 ≤ c && c ≤ 70) || (97 ≤ c && c ≤ 102)

/-- Value of a hexadecimal digit byte. -/
def hexVal (c : Nat) : Nat :=
  if c ≤ 57 then c - 48 else if c ≤ 70 then c - 55 else c - 87

/-- One `%02hhX` conversion of `sscanf`: skip whitespace, then read one or
two hexadecimal digits; fail if none. -/
def scan_hhX (l : List Nat) : Option (Nat × List Nat) :=
  match l.dropWhile isSpaceByte with
  | [] => none
  | c1 :: rest =>
    if isHexByte c1 then
      match rest with
      | c2 :: rest2 =>
        if isHexByte c2 then some (16 * hexVal c1 + hexVal c2, rest2)
        else some (hexVal c1, rest)
      | [] => some (hexVal c1, [])
    else none

/-- A literal `:` in the `sscanf` format: must match the next byte. -/
def scan_colon (l : List Nat) : Option (List Nat) :=
  match l with
  | c :: rest => if c = 58 then some rest else none
  | [] => none

/-- The whole conversion
`sscanf(data + 1, "%02hhX:%02hhX:%02hhX:%02hhX:%02hhX:%02hhX", ...)`,
succeeding (`= ETH_ALEN` conversions) exactly when all six byte fields
parse. -/
def scan_mac (l : List Nat) : Option Mac := do
  let (b0, l) ← scan_hhX l
  let l ← scan_colon l
  let (b1, l) ← scan_hhX l
  let l ← scan_colon l
  let (b2, l) ← scan_hhX l
  let l ← scan_colon l
  let (b3, l) ← scan_hhX l
  let l ← scan_colon l
  let (b4, l) ← scan_hhX l
  let l ← scan_colon l
  let (b5, _) ← scan_hhX l
  pure [b0, b1, b2, b3, b4, b5]

/-- `proc_term_write(file, buf, size, ppos)`: reject only `size == 0`
(`-EINVAL`); copy at most 128 bytes (`size = sizeof(data)` truncation),
NUL-terminate the last copied byte, dispatch `clear` / `+mac` / `-mac`
(logging and ignoring anything malformed), and return the (possibly
truncated) `size`.  `copy_from_user` is assumed to succeed (a valid user
buffer); bytes of the 128-byte stack array beyond the copied `size` are
uninitialized in C and are modelled as end-of-string. -/
def proc_term_write (jh : Nat → Nat) (s : TermState) (buf : List Nat)
    (size : Nat) : TermState × Int :=
  if size = 0 then
    (s, -22)
  else
    let sz := min size 128
    let data := (buf.take sz).set (sz - 1) 0
    if data.take 5 = [99, 108, 101, 97, 114] then
      (term_clear s, Int.ofNat sz)
    else
      match scan_mac (data.drop 1) with
      | none => (s, Int.ofNat sz)
      | some mac =>
        let op := data.headD 0
        if op = 43 then ((term_mark jh s mac TERM_AUTHED).1, Int.ofNat sz)
        else if op = 45 then ((term_mark jh s mac 0).1, Int.ofNat sz)
        else (s, Int.ofNat sz)

/-! ### Derived observations and well-formedness -/

/-- Number of live records carrying a given mac. -/
def macCount (s : TermState) (mac : Mac) : Nat :=
  (allTerms s).countP (fun t => t.mac == mac)

/-- A sequence of `add_term` calls. -/
def insertAll (jh : Nat → Nat) : TermState → List (Mac × Nat × Nat) → TermState
  | s, [] => s
  | s, (m, ip, now) :: rest => insertAll jh (add_term jh s m ip now) rest

/-- The table has its full complement of `TERM_HASH_SIZE` buckets. -/
def TableLen (s : TermState) : Prop :=
  s.table.length = TERM_HASH_SIZE

/-- Every live record's allocation identity predates the allocation
counter (fresh allocations cannot alias a live record). -/
def IdsFresh (s : TermState) : Prop :=
  ∀ t ∈ allTerms s, t.id < s.nextId

/-- No two live records share an allocation identity (distinct live heap
objects). -/
def IdsUnique (s : TermState) : Prop :=
  (allIds s).Nodup

instance (s : TermState) : Decidable (TableLen s) := by
  unfold TableLen; infer_instance

instance (s : TermState) : Decidable (IdsFresh s) := by
  unfold IdsFresh; infer_instance

instance (s : TermState) : Decidable (IdsUnique s) := by
  unfold IdsUnique; infer_instance

/-! ### Concrete sample data for witnesses -/

/-- A concrete stand-in for `jhash_1word · hash_rnd`. -/
def jh0 : Nat → Nat := fun _ => 0

/-- The MAC aa:bb:cc:dd:ee:ff. -/
def macA : Mac := [170, 187, 204, 221, 238, 255]

/-- The MAC 01:02:03:04:05:06. -/
def macB : Mac := [1, 2, 3, 4, 5, 6]

/-- One record inserted into the empty registry. -/
def sampleS1 : TermState := add_term jh0 term_init macA 5 0

/-- `sampleS1` after `term_mark_authed` on its mac. -/
def sampleAuthed : TermState := (term_mark_authed jh0 sampleS1 macA).1

/-- The record live in `sampleS1` (id 0, timer armed for one TTL). -/
def tA1 : Terminal :=
  { id := 0, mac := macA, ip := 5, flags := 0, active := 0,
    flow := ⟨0, 0⟩, j := 0, expires := TERM_TTL * HZ }

/-- The record live in `sampleAuthed`. -/
def tA1auth : Terminal := { tA1 with flags := TERM_AUTHED }

/-- A record whose `flags` word has `TERM_ACTIVE` set (as the external
activity-marking path would leave it) and whose timer is due at 6000. -/
def recActive : Terminal :=
  { id := 0, mac := macA, ip := 5, flags := TERM_ACTIVE, active := TERM_ACTIVE,
    flow := ⟨0, 0⟩, j := 0, expires := TERM_TTL * HZ }

/-- A registry holding exactly `recActive`, its timer pending. -/
def sActive : TermState :=
  { table := [recActive] :: List.replicate 255 [], armed := [0], nextId := 1 }

/-- `sampleS1` after a second insert of the same mac with a new ip. -/
def sampleS2 : TermState := add_term jh0 sampleS1 macA 7 10

/-! ### Helper lemmas: lists -/

theorem getD_set_self {α : Type _} (l : List α) (i : Nat) (x d : α)
    (h : i < l.length) : (l.set i x).getD i d = x := by
  rw [List.getD_eq_getElem?_getD, List.getElem?_set_self h]
  rfl

theorem getD_set_ne {α : Type _} (l : List α) {i j : Nat} (x d : α)
    (h : i ≠ j) : (l.set i x).getD j d = l.getD j d := by
  rw [List.getD_eq_getElem?_getD, List.getElem?_set_ne h,
    ← List.getD_eq_getElem?_getD]

theorem getD_map {α β : Type _} (g : α → β) (l : List α) (i : Nat) (d : β)
    (d0 : α) (h : i < l.length) : (l.map g).getD i d = g (l.getD i d0) := by
  have hv : l[i]? = some l[i] := List.getElem?_eq_some_iff.mpr ⟨h, rfl⟩
  rw [List.getD_eq_getElem?_getD, List.getElem?_map, hv,
    List.getD_eq_getElem?_getD, hv]
  rfl

theorem lt_length_of_getD_ne_nil {α : Type _} {l : List (List α)} {i : Nat}
    (h : l.getD i [] ≠ []) : i < l.length := by
  by_contra hn
  exact h (List.getD_eq_default l [] (Nat.le_of_not_lt hn))

theorem flatten_decomp {α : Type _} :
    ∀ (l : List (List α)) (i : Nat), i < l.length →
      l.flatten = (l.take i).flatten ++ l.getD i [] ++ (l.drop (i + 1)).flatten
  | [], i, h => by simp at h
  | a :: l, 0, _ => by simp [List.getD]
  | a :: l, i + 1, h => by
    have ih := flatten_decomp l i (by simpa using h)
    simp only [List.flatten_cons, List.take_succ_cons, List.drop_succ_cons,
      List.getD_cons_succ]
    rw [ih]
    simp [List.append_assoc]

theorem set_flatten_decomp {α : Type _} (l : List (List α)) (i : Nat)
    (b : List α) (h : i < l.length) :
    (l.set i b).flatten =
      (l.take i).flatten ++ b ++ (l.drop (i + 1)).flatten := by
  rw [List.set_eq_take_append_cons_drop, if_pos h]
  simp [List.flatten_append, List.append_assoc]

theorem flatten_set_cons_perm {α : Type _} (l : List (List α)) (i : Nat)
    (x : α) (h : i < l.length) :
    ((l.set i (x :: l.getD i [])).flatten).Perm (x :: l.flatten) := by
  rw [set_flatten_decomp l i _ h, flatten_decomp l i h]
  have he : (l.take i).flatten ++ (x :: l.getD i []) ++ (l.drop (i + 1)).flatten
      = (l.take i).flatten ++ x :: (l.getD i [] ++ (l.drop (i + 1)).flatten) := by
    simp [List.append_assoc]
  rw [he]
  refine List.perm_middle.trans ?_
  simp [List.append_assoc]

theorem find?_id_of_mem {l : List Terminal} {t : Terminal}
    (hu : (l.map (·.id)).Nodup) (ht : t ∈ l) :
    l.find? (fun u => u.id == t.id) = some t := by
  induction l with
  | nil => cases ht
  | cons a l ih =>
    rw [List.map_cons, List.nodup_cons] at hu
    rcases List.mem_cons.mp ht with rfl | hmem
    · exact List.find?_cons_of_pos _ (by simp)
    · have hne : a.id ≠ t.id := fun he =>
        hu.1 (he ▸ List.mem_map_of_mem (·.id) hmem)
      rw [List.find?_cons_of_neg _ (by simp [hne]), ih hu.2 hmem]

/-- A live record is found by dereferencing its own pointer. -/
theorem deref_of_mem {s : TermState} {t : Terminal} (hu : IdsUnique s)
    (ht : t ∈ allTerms s) : deref s t.id = some t :=
  find?_id_of_mem hu ht

theorem mem_allTerms_of_mem_bucket {s : TermState} {t : Terminal} {h : Nat}
    (ht : t ∈ bucketOf s h) : t ∈ allTerms s := by
  have hlt : h < s.table.length :=
    lt_length_of_getD_ne_nil (fun he => by rw [bucketOf, he] at ht; cases ht)
  rw [allTerms, flatten_decomp s.table h hlt]
  rw [bucketOf, List.getD_eq_getElem?_getD] at ht
  simp [ht]

/-! ### Helper lemmas: the flag bit arithmetic of `term_mark` -/

theorem two_mul_or_one (k : Nat) : 2 * k ||| 1 = 2 * k + 1 := by
  apply Nat.eq_of_testBit_eq
  intro i
  cases i with
  | zero =>
    have h1 : 2 * k % 2 = 0 := by omega
    have h2 : (2 * k + 1) % 2 = 1 := by omega
    simp [Nat.testBit_or, Nat.testBit_zero, h1, h2]
  | succ i =>
    have h1 : 2 * k / 2 = k := by omega
    have h2 : (2 * k + 1) / 2 = k := by omega
    have h3 : (1 : Nat) / 2 = 0 := by omega
    rw [Nat.testBit_or, Nat.testBit_succ, Nat.testBit_succ, Nat.testBit_succ,
      h1, h2, h3, Nat.zero_testBit, Bool.or_false]

theorem and_two_eq (n : Nat) : n &&& 2 = 2 * (n / 2 % 2) := by
  have h := Nat.and_two_pow n 1
  have hb : n.testBit 1 = decide (n / 2 % 2 = 1) := by
    rw [show (1 : Nat) = Nat.succ 0 from rfl, Nat.testBit_succ, Nat.testBit_zero]
  rw [pow_one] at h
  rw [h, hb]
  rcases Nat.mod_two_eq_zero_or_one (n / 2) with h2 | h2 <;> simp [h2]

/-- `term_mark`'s flag update, in closed form: keep every bit above bit 0
and force bit 0 to the requested value. -/
theorem setAuthedFlags_eq (f a : Nat) :
    setAuthedFlags f a = 2 * (f / 2) + (if a ≠ 0 then 1 else 0) := by
  unfold setAuthedFlags TERM_AUTHED
  rw [Nat.and_one_is_mod]
  have hs : f - f % 2 = 2 * (f / 2) := by omega
  rw [hs]
  split
  · rw [two_mul_or_one]
  · omega

theorem setAuthedFlags_idem (f a : Nat) :
    setAuthedFlags (setAuthedFlags f a) a = setAuthedFlags f a := by
  simp only [setAuthedFlags_eq]
  split <;> omega

theorem setAuthedFlags_div_two (f a : Nat) :
    setAuthedFlags f a / 2 = f / 2 := by
  rw [setAuthedFlags_eq]
  split <;> omega

theorem setAuthedFlags_and_active (f a : Nat) :
    setAuthedFlags f a &&& TERM_ACTIVE = f &&& TERM_ACTIVE := by
  rw [show TERM_ACTIVE = 2 from rfl, and_two_eq, and_two_eq,
    setAuthedFlags_div_two]

theorem setAuthedFlags_and_authed (f a : Nat) :
    setAuthedFlags f a &&& TERM_AUTHED = if a ≠ 0 then 1 else 0 := by
  rw [show TERM_AUTHED = 1 from rfl, Nat.and_one_is_mod, setAuthedFlags_eq]
  split <;> omega

/-! ### Helper lemmas: the bucket traversal of `term_mark` -/

theorem markInBucket_eq_none {b : List Terminal} {mac : Mac} {a : Nat} :
    markInBucket b mac a = none ↔
      b.find? (fun t => t.mac == mac) = none := by
  induction b with
  | nil => simp [markInBucket]
  | cons t rest ih =>
    by_cases hm : (t.mac == mac) = true
    · simp [markInBucket, hm, List.find?_cons_of_pos _ hm]
    · rw [markInBucket, if_neg hm,
        @List.find?_cons_of_neg _ (fun u => u.mac == mac) t rest hm, ← ih]
      simp

theorem markInBucket_decomp {b b2 : List Terminal} {mac : Mac} {a : Nat}
    (h : markInBucket b mac a = some b2) :
    ∃ pre t post, b = pre ++ t :: post ∧
      (∀ u ∈ pre, (u.mac == mac) = false) ∧ (t.mac == mac) = true ∧
      b2 = pre ++ { t with flags := setAuthedFlags t.flags a } :: post := by
  induction b generalizing b2 with
  | nil => simp [markInBucket] at h
  | cons t rest ih =>
    by_cases hm : (t.mac == mac) = true
    · rw [markInBucket, if_pos hm, Option.some_inj] at h
      exact ⟨[], t, rest, by simp, by simp, hm, by simp [h.symm]⟩
    · rw [markInBucket, if_neg hm, Option.map_eq_some'] at h
      obtain ⟨r2, hr, rfl⟩ := h
      obtain ⟨pre, u, post, hb, hpre, hu, hr2⟩ := ih hr
      refine ⟨t :: pre, u, post, by simp [hb], ?_, hu, by simp [hr2]⟩
      intro v hv
      rcases List.mem_cons.mp hv with rfl | hv2
      · simpa using hm
      · exact hpre v hv2

theorem find?_of_decomp {pre post : List Terminal} {t : Terminal} {mac : Mac}
    (hpre : ∀ u ∈ pre, (u.mac == mac) = false) (ht : (t.mac == mac) = true) :
    (pre ++ t :: post).find? (fun u => u.mac == mac) = some t := by
  rw [List.find?_append]
  have hn : pre.find? (fun u => u.mac == mac) = none :=
    List.find?_eq_none.mpr (fun u hu => by simp [hpre u hu])
  rw [hn, @List.find?_cons_of_pos _ (fun u => u.mac == mac) t post ht]
  rfl

/-! ### Claim theorems -/

/-- C1, counterexample: inserting the same mac twice (`term_init`, then
`add_term` of `macA` with ip 5, then `add_term` of `macA` again with ip 7)
leaves two live Terminal records carrying `macA` — so it is false that after
every sequence of `add_term` calls each mac is present in at most one
record: `add_term` never checks for an existing key. -/
theorem c1_duplicate_insert_cex : macCount sampleS2 macA = 2 := by decide

/-- C2, the code evaluated at the failing input: a record whose `flags`
word has `TERM_ACTIVE` set, at the moment its timer fires.  The callback
leaves `flags` unchanged (still `TERM_ACTIVE`) because it executes
`term->active &= ~TERM_ACTIVE` — clearing the bit in the unrelated `active`
field, which this run shows going from `TERM_ACTIVE` to 0 — and rearms the
timer for another TTL.  The claim (and spec §4.4) instead requires the
active flag in `flags` to be cleared, transitioning the record to IDLE. -/
theorem c2_active_branch_eval :
    deref (fire_timer sActive 0 (TERM_TTL * HZ)) 0 =
      some { recActive with active := 0, expires := TERM_TTL * HZ + TERM_TTL * HZ } ∧
    (deref (fire_timer sActive 0 (TERM_TTL * HZ)) 0).map (·.flags) =
      some TERM_ACTIVE ∧
    0 ∈ (fire_timer sActive 0 (TERM_TTL * HZ)).armed := by decide

/-- C3, counterexample: a Terminal inserted by `add_term` at time 0 with no
activity signal afterwards IS destroyed by the first timer firing, exactly
one TTL after insertion: `kmem_cache_zalloc` leaves `flags = 0`, so the
callback's `term->flags & TERM_ACTIVE` test takes the destroy branch at its
very first firing. -/
theorem c3_first_firing_destroys_cex :
    (deref sampleS1 0).map (·.flags) = some 0 ∧
    (deref sampleS1 0).map (·.expires) = some (TERM_TTL * HZ) ∧
    find_term_by_mac jh0 sampleS1 macA = some 0 ∧
    find_term_by_mac jh0 (fire_timer sampleS1 0 (TERM_TTL * HZ)) macA = none ∧
    allTerms (fire_timer sampleS1 0 (TERM_TTL * HZ)) = [] := by decide

/-- C4, counterexample: a 129-byte write is truncated to
`sizeof(data) = 128` and `proc_term_write` returns the truncated size 128,
not the full byte count 129 the claim promises. -/
theorem c4_truncated_return_cex :
    (proc_term_write jh0 term_init (List.replicate 129 120) 129).2 = 128 ∧
    (128 : Int) ≠ 129 := ⟨by decide, by decide⟩

/-- C4 (amended): for every write of N > 0 bytes — malformed commands and
empty lines included — `proc_term_write` returns the positive byte count
`min N 128` (the full count for N ≤ 128; longer input is truncated to 128
and only that amount is reported consumed), never an error. -/
theorem c4_write_returns_min (jh : Nat → Nat) (s : TermState)
    (buf : List Nat) (size : Nat) (h : 0 < size) :
    (proc_term_write jh s buf size).2 = Int.ofNat (min size 128) ∧
    0 < min size 128 := by
  refine ⟨?_, by omega⟩
  unfold proc_term_write
  rw [if_neg (by omega : ¬size = 0)]
  dsimp only
  split
  · rfl
  · split
    · rfl
    · split
      · rfl
      · split <;> rfl

/-- C4 witness: the amended theorem at a concrete malformed 6-byte write. -/
theorem c4_write_returns_min_witness :
    (0 : Nat) < 6 ∧
    (proc_term_write jh0 term_init [104, 101, 108, 108, 111, 10] 6).2 =
      Int.ofNat (min 6 128) ∧ 0 < min 6 128 :=
  ⟨by decide, c4_write_returns_min jh0 term_init [104, 101, 108, 108, 111, 10] 6 (by decide)⟩

/-- C7: after `term_clear`, the enumeration the seq_file read side performs
yields zero Terminal entries, `find_term_by_mac` returns NULL for every mac
(in particular every previously inserted one), every live record's timer
has been `del_timer`ed, and every record is destroyed (none survives in any
bucket). -/
theorem c7_clear_all (s : TermState) :
    allTerms (term_clear s) = [] ∧
    (∀ jh mac, find_term_by_mac jh (term_clear s) mac = none) ∧
    (∀ p ∈ allIds s, p ∉ (term_clear s).armed) := by
  refine ⟨?_, ?_, ?_⟩
  · show (s.table.map (fun _ => [])).flatten = []
    induction s.table with
    | nil => rfl
    | cons a l ih => simp [ih]
  · intro jh mac
    simp only [find_term_by_mac, bucketOf, term_clear]
    rw [List.getD_eq_getElem?_getD, List.getElem?_map]
    cases s.table[term_mac_hash jh mac]? <;> rfl
  · intro p hp hmem
    have hmem2 := (List.mem_filter.mp hmem).2
    have hc : (allIds s).contains p = true := by
      simpa [List.contains] using List.elem_iff.mpr hp
    rw [hc] at hmem2
    cases hmem2

/-- C7 witness: the theorem applied to a concrete one-record registry with
an armed timer. -/
theorem c7_clear_all_witness :
    allTerms (term_clear sampleAuthed) = [] ∧
    find_term_by_mac jh0 (term_clear sampleAuthed) macA = none ∧
    0 ∉ (term_clear sampleAuthed).armed :=
  ⟨(c7_clear_all sampleAuthed).1,
   (c7_clear_all sampleAuthed).2.1 jh0 macA,
   (c7_clear_all sampleAuthed).2.2 0 (by decide)⟩

/-- C6: `term_is_authd` only ever answers 0 or 1 (never an error value);
for a mac with no record it answers 0; and for a mac whose lookup finds a
record it answers 1 exactly when that record's `flags` word has
`TERM_AUTHED` set. -/
theorem c6_is_authd_spec (jh : Nat → Nat) (s : TermState) (mac : Mac) :
    (term_is_authd jh s mac = 0 ∨ term_is_authd jh s mac = 1) ∧
    (find_term_by_mac jh s mac = none → term_is_authd jh s mac = 0) ∧
    (IdsUnique s → ∀ p, find_term_by_mac jh s mac = some p →
      ∃ t, deref s p = some t ∧ (t.mac == mac) = true ∧
        term_is_authd jh s mac =
          if t.flags &&& TERM_AUTHED ≠ 0 then 1 else 0) := by
  refine ⟨?_, ?_, ?_⟩
  · unfold term_is_authd
    cases (find_term_by_mac jh s mac).bind (deref s) with
    | none => exact Or.inl rfl
    | some t =>
      by_cases hf : t.flags &&& TERM_AUTHED ≠ 0
      · exact Or.inr (by simp [hf])
      · exact Or.inl (by simp [hf])
  · intro hn
    unfold term_is_authd
    rw [hn]
    rfl
  · intro hu p hp
    have hp2 := hp
    rw [find_term_by_mac, Option.map_eq_some'] at hp2
    obtain ⟨t, hfind, hid⟩ := hp2
    have htmem : t ∈ allTerms s :=
      mem_allTerms_of_mem_bucket (List.mem_of_find?_eq_some hfind)
    have hder : deref s p = some t := by
      rw [← hid]
      exact deref_of_mem hu htmem
    refine ⟨t, hder,
      @List.find?_some _ (fun u => u.mac == mac) t
        (bucketOf s (term_mac_hash jh mac)) hfind, ?_⟩
    unfold term_is_authd
    rw [hp, Option.some_bind, hder]

/-- C6 witness: the theorem applied to a concrete registry whose single
record for `macA` is authenticated. -/
theorem c6_is_authd_spec_witness : term_is_authd jh0 sampleAuthed macA = 1 := by
  obtain ⟨t, ht, hmac, heq⟩ :=
    (c6_is_authd_spec jh0 sampleAuthed macA).2.2 (by decide) 0 (by decide)
  have h0 : deref sampleAuthed 0 = some tA1auth := by decide
  rw [h0, Option.some_inj] at ht
  rw [heq, ← ht]
  decide

/-- Re-marking an already rewritten bucket is a no-op: the first matching
record is at the same position (its mac is unchanged) and
`setAuthedFlags` is idempotent. -/
theorem markInBucket_idem {b b2 : List Terminal} {mac : Mac} {a : Nat}
    (h : markInBucket b mac a = some b2) :
    markInBucket b2 mac a = some b2 := by
  induction b generalizing b2 with
  | nil => simp [markInBucket] at h
  | cons t rest ih =>
    by_cases hm : (t.mac == mac) = true
    · rw [markInBucket, if_pos hm, Option.some_inj] at h
      subst h
      rw [markInBucket, if_pos hm, Option.some_inj]
      simp [setAuthedFlags_idem]
    · rw [markInBucket, if_neg hm, Option.map_eq_some'] at h
      obtain ⟨r2, hr, rfl⟩ := h
      rw [markInBucket, if_neg hm, ih hr]
      rfl

/-- C8: for a mac present in the table, `term_mark_authed` succeeds
(returns 0), and running it a second time yields exactly the same registry
state and return value as running it once. -/
theorem c8_mark_authed_idem (jh : Nat → Nat) (s : TermState) (mac : Mac)
    (hp : find_term_by_mac jh s mac ≠ none) :
    term_mark_authed jh (term_mark_authed jh s mac).1 mac =
      term_mark_authed jh s mac ∧
    (term_mark_authed jh s mac).2 = 0 := by
  simp only [term_mark_authed, term_mark]
  have hfind : (bucketOf s (term_mac_hash jh mac)).find?
      (fun t => t.mac == mac) ≠ none := by
    intro hn
    apply hp
    rw [find_term_by_mac, hn]
    rfl
  obtain ⟨b2, hb2⟩ : ∃ b2,
      markInBucket (bucketOf s (term_mac_hash jh mac)) mac TERM_AUTHED
        = some b2 := by
    cases hmk : markInBucket (bucketOf s (term_mac_hash jh mac)) mac
        TERM_AUTHED with
    | none => exact absurd (markInBucket_eq_none.mp hmk) hfind
    | some b2 => exact ⟨b2, rfl⟩
  have hne : s.table.getD (term_mac_hash jh mac) [] ≠ [] := by
    intro he
    apply hfind
    rw [bucketOf, he]
    rfl
  have hlt := lt_length_of_getD_ne_nil hne
  rw [hb2]
  dsimp only
  have hbucket : bucketOf { s with table := s.table.set (term_mac_hash jh mac) b2 }
      (term_mac_hash jh mac) = b2 :=
    getD_set_self s.table (term_mac_hash jh mac) b2 [] hlt
  rw [hbucket, markInBucket_idem hb2]
  dsimp only
  rw [List.set_set]
  exact ⟨rfl, rfl⟩

/-- C8 witness: the theorem applied to a concrete one-record registry. -/
theorem c8_mark_authed_idem_witness :
    find_term_by_mac jh0 sampleS1 macA ≠ none ∧
    term_mark_authed jh0 (term_mark_authed jh0 sampleS1 macA).1 macA =
      term_mark_authed jh0 sampleS1 macA :=
  ⟨by decide, (c8_mark_authed_idem jh0 sampleS1 macA (by decide)).1⟩

/-- Marking a bucket given as an explicit decomposition around its first
matching record. -/
theorem markInBucket_of_decomp {pre post : List Terminal} {t : Terminal}
    {mac : Mac} {a : Nat}
    (hpre : ∀ u ∈ pre, (u.mac == mac) = false)
    (hmac : (t.mac == mac) = true) :
    markInBucket (pre ++ t :: post) mac a =
      some (pre ++ { t with flags := setAuthedFlags t.flags a } :: post) := by
  induction pre with
  | nil => simp [markInBucket, hmac]
  | cons v pre ih =>
    have hv : (v.mac == mac) = false := hpre v (by simp)
    rw [List.cons_append, markInBucket, if_neg (by simp [hv]),
      ih (fun u hu => hpre u (by simp [hu]))]
    rfl

/-- C9: `term_mark` on a mac present in the table — given its bucket split
around the first matching record `t` — rewrites exactly that record's
`flags` word, leaving the records before it, the records after it, every
other bucket, and the state's timers and allocation counter unchanged; and
the flag rewrite touches only the `TERM_AUTHED` bit: all higher bits
(`flags / 2`, in particular the `TERM_ACTIVE` bit) are preserved.  The
rewritten record `{ t with flags := ... }` keeps `t`'s mac, ip, flow
counters, creation timestamp `j`, `active` word and timer field by
construction. -/
theorem c9_mark_frame (jh : Nat → Nat) (s : TermState) (mac : Mac) (a : Nat)
    (pre post : List Terminal) (t : Terminal)
    (hb : bucketOf s (term_mac_hash jh mac) = pre ++ t :: post)
    (hpre : ∀ u ∈ pre, (u.mac == mac) = false)
    (hmac : (t.mac == mac) = true) :
    (term_mark jh s mac a).1.table =
      s.table.set (term_mac_hash jh mac)
        (pre ++ { t with flags := setAuthedFlags t.flags a } :: post) ∧
    (∀ h2, h2 ≠ term_mac_hash jh mac →
      bucketOf (term_mark jh s mac a).1 h2 = bucketOf s h2) ∧
    (term_mark jh s mac a).1.armed = s.armed ∧
    (term_mark jh s mac a).1.nextId = s.nextId ∧
    (term_mark jh s mac a).2 = 0 ∧
    setAuthedFlags t.flags a / 2 = t.flags / 2 ∧
    setAuthedFlags t.flags a &&& TERM_ACTIVE = t.flags &&& TERM_ACTIVE ∧
    setAuthedFlags t.flags a &&& TERM_AUTHED = (if a ≠ 0 then 1 else 0) := by
  simp only [term_mark]
  rw [hb, markInBucket_of_decomp hpre hmac]
  dsimp only
  refine ⟨rfl, ?_, rfl, rfl, rfl, setAuthedFlags_div_two _ _,
    setAuthedFlags_and_active _ _, setAuthedFlags_and_authed _ _⟩
  intro h2 hne
  show (s.table.set (term_mac_hash jh mac) _).getD h2 [] = s.table.getD h2 []
  exact getD_set_ne s.table _ [] (Ne.symm hne)

/-- C9 witness: the theorem applied to the one-record registry `sampleS1`
(bucket split `[] ++ tA1 :: []`). -/
theorem c9_mark_frame_witness :
    (term_mark jh0 sampleS1 macA TERM_AUTHED).1.table =
      sampleS1.table.set (term_mac_hash jh0 macA)
        ([] ++ { tA1 with flags := setAuthedFlags tA1.flags TERM_AUTHED } :: []) ∧
    (term_mark jh0 sampleS1 macA TERM_AUTHED).1.armed = sampleS1.armed ∧
    (term_mark jh0 sampleS1 macA TERM_AUTHED).2 = 0 :=
  have h := c9_mark_frame jh0 sampleS1 macA TERM_AUTHED [] [] tA1
    (by decide) (by decide) (by decide)
  ⟨h.1, h.2.2.1, h.2.2.2.2.1⟩

/-! ### Helper lemmas: the state after `add_term` -/

theorem mapId_getD (table : List (List Terminal)) (p : Nat)
    (f : Terminal → Terminal) (h2 : Nat) (hlt : h2 < table.length) :
    (mapId table p f).getD h2 [] =
      (table.getD h2 []).map (fun t => if t.id == p then f t else t) :=
  getD_map _ table h2 [] [] hlt

theorem map_noop_of_fresh {l : List Terminal} {p : Nat}
    {f : Terminal → Terminal} (hfr : ∀ t ∈ l, t.id ≠ p) :
    l.map (fun t => if t.id == p then f t else t) = l := by
  induction l with
  | nil => rfl
  | cons a l ih =>
    have ha : a.id ≠ p := hfr a (List.mem_cons_self a l)
    simp only [List.map_cons, if_neg (by simp [ha] : ¬(a.id == p) = true)]
    rw [ih (fun t ht => hfr t (List.mem_cons_of_mem a ht))]

theorem hash_lt_of_tableLen {jh : Nat → Nat} {s : TermState} {m : Mac}
    (hl : TableLen s) : term_mac_hash jh m < s.table.length := by
  rw [hl]
  show jh (term_mac_key m) % TERM_HASH_SIZE < TERM_HASH_SIZE
  exact Nat.mod_lt _ (by decide)

/-- Everything `add_term` does to the state: the fresh zero-filled record —
its timer programmed for one TTL — is at the head of its mac's bucket,
every other bucket is untouched, the fresh timer is pending, the
allocation counter advances, and as a multiset the live records gain
exactly the new one. -/
theorem add_term_state (jh : Nat → Nat) (s : TermState) (m : Mac)
    (ip now : Nat) (hl : TableLen s) (hf : IdsFresh s) :
    bucketOf (add_term jh s m ip now) (term_mac_hash jh m) =
      newRec s m ip now :: bucketOf s (term_mac_hash jh m) ∧
    (∀ h2, h2 ≠ term_mac_hash jh m →
      bucketOf (add_term jh s m ip now) h2 = bucketOf s h2) ∧
    (add_term jh s m ip now).armed = armTimer s.armed s.nextId ∧
    (add_term jh s m ip now).nextId = s.nextId + 1 ∧
    (allTerms (add_term jh s m ip now)).Perm
      (newRec s m ip now :: allTerms s) := by
  have hlt : term_mac_hash jh m < s.table.length := hash_lt_of_tableLen hl
  have hnoop : ∀ l : List Terminal, (∀ t ∈ l, t ∈ allTerms s) →
      l.map (fun t => if t.id == s.nextId then
        { t with expires := now + TERM_TTL * HZ } else t) = l :=
    fun l hsub =>
      map_noop_of_fresh (fun t ht => Nat.ne_of_lt (hf t (hsub t ht)))
  refine ⟨?_, ?_, rfl, rfl, ?_⟩
  · simp only [add_term, term_timer_refresh, bucketOf]
    rw [mapId_getD _ _ _ _ (by rw [List.length_set]; exact hlt),
      getD_set_self _ _ _ _ hlt, List.map_cons]
    congr 1
    · simp [newRec]
    · exact hnoop _ (fun t ht => mem_allTerms_of_mem_bucket ht)
  · intro h2 hne
    simp only [add_term, term_timer_refresh, bucketOf]
    by_cases hcase : h2 < s.table.length
    · rw [mapId_getD _ _ _ _ (by rw [List.length_set]; exact hcase),
        getD_set_ne s.table _ [] (Ne.symm hne)]
      exact hnoop _ (fun t ht => mem_allTerms_of_mem_bucket ht)
    · have hge : s.table.length ≤ h2 := Nat.le_of_not_lt hcase
      rw [List.getD_eq_default _ _
          (by unfold mapId; rw [List.length_map, List.length_set]; exact hge),
        List.getD_eq_default _ _ hge]
  · simp only [add_term, term_timer_refresh, allTerms, mapId]
    rw [← List.map_flatten]
    have hp1 := flatten_set_cons_perm s.table (term_mac_hash jh m)
      { id := s.nextId, mac := m, ip := ip, flags := 0, active := 0,
        flow := ⟨0, 0⟩, j := now, expires := 0 } hlt
    refine (hp1.map _).trans (List.Perm.of_eq ?_)
    rw [List.map_cons, hnoop s.table.flatten (fun t ht => ht)]
    simp [newRec]

theorem tableLen_add_term (jh : Nat → Nat) (s : TermState) (m : Mac)
    (ip now : Nat) (hl : TableLen s) : TableLen (add_term jh s m ip now) := by
  show (mapId _ _ _).length = TERM_HASH_SIZE
  unfold mapId
  rw [List.length_map, List.length_set]
  exact hl

theorem idsFresh_add_term (jh : Nat → Nat) (s : TermState) (m : Mac)
    (ip now : Nat) (hl : TableLen s) (hf : IdsFresh s) :
    IdsFresh (add_term jh s m ip now) := by
  have hst := add_term_state jh s m ip now hl hf
  intro t ht
  rw [hst.2.2.2.1]
  rcases List.mem_cons.mp (hst.2.2.2.2.mem_iff.mp ht) with rfl | hmem
  · show s.nextId < s.nextId + 1
    omega
  · exact Nat.lt_succ_of_lt (hf t hmem)

theorem idsUnique_add_term (jh : Nat → Nat) (s : TermState) (m : Mac)
    (ip now : Nat) (hl : TableLen s) (hf : IdsFresh s) (hu : IdsUnique s) :
    IdsUnique (add_term jh s m ip now) := by
  have hst := add_term_state jh s m ip now hl hf
  apply ((hst.2.2.2.2.map (·.id)).nodup_iff).mpr
  rw [List.map_cons, List.nodup_cons]
  refine ⟨?_, hu⟩
  intro hmem
  obtain ⟨t, htmem, htid⟩ := List.mem_map.mp hmem
  exact absurd htid (Nat.ne_of_lt (hf t htmem))

theorem macCount_add_term (jh : Nat → Nat) (s : TermState) (m : Mac)
    (ip now : Nat) (hl : TableLen s) (hf : IdsFresh s) (m2 : Mac) :
    macCount (add_term jh s m ip now) m2 =
      macCount s m2 + (if (m == m2) = true then 1 else 0) := by
  have hst := add_term_state jh s m ip now hl hf
  unfold macCount
  rw [List.Perm.countP_eq _ hst.2.2.2.2, List.countP_cons]
  rfl

theorem macCount_insertAll (jh : Nat → Nat) (ops : List (Mac × Nat × Nat)) :
    ∀ s : TermState, TableLen s → IdsFresh s → ∀ m2 : Mac,
      macCount (insertAll jh s ops) m2 =
        macCount s m2 + (ops.map (·.1)).countP (fun x => x == m2) := by
  induction ops with
  | nil =>
    intro s _ _ m2
    simp [insertAll]
  | cons o rest ih =>
    intro s hl hf m2
    obtain ⟨m, ip, now⟩ := o
    show macCount (insertAll jh (add_term jh s m ip now) rest) m2 = _
    rw [ih _ (tableLen_add_term _ _ _ _ _ hl)
        (idsFresh_add_term _ _ _ _ _ hl hf) m2,
      macCount_add_term _ _ _ _ _ hl hf m2]
    simp only [List.map_cons, List.countP_cons]
    omega

theorem countP_beq_le_one_of_nodup {l : List Mac} {m : Mac} (h : l.Nodup) :
    l.countP (fun x => x == m) ≤ 1 := by
  induction l with
  | nil => simp
  | cons x rest ih =>
    obtain ⟨hx, hrest⟩ := List.nodup_cons.mp h
    rw [List.countP_cons]
    by_cases he : (x == m) = true
    · have hxm : x = m := by simpa using he
      subst hxm
      have h0 : rest.countP (fun y => y == x) = 0 := by
        apply List.countP_eq_zero.mpr
        intro a ha hae
        have hax : a = x := by simpa using hae
        exact hx (hax ▸ ha)
      simp [h0, he]
    · simpa [he] using ih hrest

/-- C1 (amended): after any sequence of `add_term` inserts whose macs are
pairwise distinct (each hardware address inserted at most once), no two
live Terminal records share a hardware address — every mac sits in at most
one live record. -/
theorem c1_uniqueness_distinct (jh : Nat → Nat) (ops : List (Mac × Nat × Nat))
    (hnd : (ops.map (·.1)).Nodup) (mac : Mac) :
    macCount (insertAll jh term_init ops) mac ≤ 1 := by
  rw [macCount_insertAll jh ops term_init (by decide) (by decide) mac]
  have h0 : allTerms term_init = [] := by decide
  unfold macCount
  rw [h0]
  simpa using countP_beq_le_one_of_nodup hnd

/-- C1 witness: the amended theorem on a concrete two-insert sequence with
distinct macs. -/
theorem c1_uniqueness_distinct_witness :
    (([(macA, 5, 0), (macB, 6, 0)] : List (Mac × Nat × Nat)).map (·.1)).Nodup ∧
    macCount (insertAll jh0 term_init [(macA, 5, 0), (macB, 6, 0)]) macA ≤ 1 :=
  ⟨by decide,
   c1_uniqueness_distinct jh0 [(macA, 5, 0), (macB, 6, 0)] (by decide) macA⟩

/-- The table length is unchanged by `add_term`. -/
theorem tableLength_add_term (jh : Nat → Nat) (s : TermState) (m : Mac)
    (ip now : Nat) :
    (add_term jh s m ip now).table.length = s.table.length := by
  show (mapId _ _ _).length = _
  unfold mapId
  rw [List.length_map, List.length_set]

/-- C3 (amended): a Terminal inserted by `add_term` with no activity signal
afterwards is created with `flags = 0` (so its `TERM_ACTIVE` bit is clear)
and its timer due exactly one TTL after insertion; it stays findable until
that firing, and the first firing removes and destroys it — lookup is
absent afterwards and no further timer is armed for it.  It is therefore
destroyed exactly one TTL after insertion (inside the claimed two-TTL
bound, but by the first firing). -/
theorem c3_expiry_amended (jh : Nat → Nat) (s : TermState) (m : Mac)
    (ip now : Nat) (hl : TableLen s) (hf : IdsFresh s) (hu : IdsUnique s)
    (habs : find_term_by_mac jh s m = none) :
    find_term_by_mac jh (add_term jh s m ip now) m = some s.nextId ∧
    (deref (add_term jh s m ip now) s.nextId).map (·.flags) = some 0 ∧
    (deref (add_term jh s m ip now) s.nextId).map (·.expires) =
      some (now + TERM_TTL * HZ) ∧
    find_term_by_mac jh
      (fire_timer (add_term jh s m ip now) s.nextId (now + TERM_TTL * HZ)) m
      = none ∧
    s.nextId ∉
      (fire_timer (add_term jh s m ip now) s.nextId
        (now + TERM_TTL * HZ)).armed := by
  have hst := add_term_state jh s m ip now hl hf
  have hu2 := idsUnique_add_term jh s m ip now hl hf hu
  have hmem : newRec s m ip now ∈ allTerms (add_term jh s m ip now) :=
    hst.2.2.2.2.mem_iff.mpr (List.mem_cons_self _ _)
  have hder : deref (add_term jh s m ip now) s.nextId =
      some (newRec s m ip now) := deref_of_mem hu2 hmem
  have hfind : find_term_by_mac jh (add_term jh s m ip now) m =
      some s.nextId := by
    rw [find_term_by_mac, hst.1,
      @List.find?_cons_of_pos _ (fun u => u.mac == m) (newRec s m ip now) _
        (by simp [newRec])]
    rfl
  have hderA : deref
      { add_term jh s m ip now with
        armed := (add_term jh s m ip now).armed.filter
          (fun q => q != s.nextId) } s.nextId = some (newRec s m ip now) :=
    hder
  have key : fire_timer (add_term jh s m ip now) s.nextId
      (now + TERM_TTL * HZ) =
      { add_term jh s m ip now with
        table := removeId (add_term jh s m ip now).table s.nextId
        armed := (add_term jh s m ip now).armed.filter
          (fun q => q != s.nextId) } := by
    simp only [fire_timer, term_timer_timeout]
    rw [hderA]
    dsimp only
    rw [if_pos (show (newRec s m ip now).flags &&& TERM_ACTIVE = 0 from by simp [newRec, TERM_ACTIVE])]
  refine ⟨hfind, by rw [hder]; rfl, by rw [hder]; rfl, ?_, ?_⟩
  · rw [key, find_term_by_mac]
    have hlt2 : term_mac_hash jh m < (add_term jh s m ip now).table.length := by
      rw [tableLength_add_term]
      exact hash_lt_of_tableLen hl
    have hbucket2 : bucketOf
        { add_term jh s m ip now with
          table := removeId (add_term jh s m ip now).table s.nextId
          armed := (add_term jh s m ip now).armed.filter
            (fun q => q != s.nextId) } (term_mac_hash jh m) =
        (bucketOf (add_term jh s m ip now) (term_mac_hash jh m)).filter
          (fun t => t.id != s.nextId) := by
      show (removeId _ _).getD _ [] = _
      unfold removeId
      exact getD_map _ _ _ [] [] hlt2
    rw [hbucket2, hst.1, List.filter_cons,
      if_neg (by simp [newRec] : ¬((newRec s m ip now).id != s.nextId) = true)]
    have hkeep : (bucketOf s (term_mac_hash jh m)).filter
        (fun t => t.id != s.nextId) = bucketOf s (term_mac_hash jh m) :=
      List.filter_eq_self.mpr (fun t ht => by
        simp [Nat.ne_of_lt (hf t (mem_allTerms_of_mem_bucket ht))])
    rw [hkeep]
    rw [find_term_by_mac, Option.map_eq_none'] at habs
    rw [habs]
    rfl
  · rw [key]
    intro hmem2
    have := (List.mem_filter.mp hmem2).2
    simp at this

/-- C3 witness: the amended theorem on the empty registry — insert `macA`
at time 0, fire its timer one TTL later. -/
theorem c3_expiry_amended_witness :
    find_term_by_mac jh0 (add_term jh0 term_init macA 5 0) macA =
      some term_init.nextId ∧
    (deref (add_term jh0 term_init macA 5 0) term_init.nextId).map (·.flags) =
      some 0 ∧
    (deref (add_term jh0 term_init macA 5 0) term_init.nextId).map (·.expires) =
      some (0 + TERM_TTL * HZ) ∧
    find_term_by_mac jh0
      (fire_timer (add_term jh0 term_init macA 5 0) term_init.nextId
        (0 + TERM_TTL * HZ)) macA = none ∧
    term_init.nextId ∉
      (fire_timer (add_term jh0 term_init macA 5 0) term_init.nextId
        (0 + TERM_TTL * HZ)).armed :=
  c3_expiry_amended jh0 term_init macA 5 0 (by decide) (by decide) (by decide)
    (by decide)

/-- C10: inserting a mac that is already present succeeds and creates a
second record at the head of the same bucket; a subsequent
`find_term_by_mac` returns the most recently inserted record (the fresh
pointer, carrying the new ip); and the older record is shadowed but still
live in the table. -/
theorem c10_duplicate_shadow (jh : Nat → Nat) (s : TermState) (m : Mac)
    (ip now : Nat) (p0 : Nat) (hl : TableLen s) (hf : IdsFresh s)
    (hu : IdsUnique s) (hp : find_term_by_mac jh s m = some p0) :
    bucketOf (add_term jh s m ip now) (term_mac_hash jh m) =
      newRec s m ip now :: bucketOf s (term_mac_hash jh m) ∧
    find_term_by_mac jh (add_term jh s m ip now) m = some s.nextId ∧
    (deref (add_term jh s m ip now) s.nextId).map (·.ip) = some ip ∧
    p0 ≠ s.nextId ∧
    ∃ t0, deref s p0 = some t0 ∧ (t0.mac == m) = true ∧
      t0 ∈ allTerms (add_term jh s m ip now) := by
  have hst := add_term_state jh s m ip now hl hf
  have hu2 := idsUnique_add_term jh s m ip now hl hf hu
  have hmem : newRec s m ip now ∈ allTerms (add_term jh s m ip now) :=
    hst.2.2.2.2.mem_iff.mpr (List.mem_cons_self _ _)
  have hder : deref (add_term jh s m ip now) s.nextId =
      some (newRec s m ip now) := deref_of_mem hu2 hmem
  rw [find_term_by_mac, Option.map_eq_some'] at hp
  obtain ⟨t0, hfind0, hid0⟩ := hp
  have htmem : t0 ∈ allTerms s :=
    mem_allTerms_of_mem_bucket (List.mem_of_find?_eq_some hfind0)
  refine ⟨hst.1, ?_, by rw [hder]; rfl, ?_, t0, ?_, ?_, ?_⟩
  · rw [find_term_by_mac, hst.1,
      @List.find?_cons_of_pos _ (fun u => u.mac == m) (newRec s m ip now) _
        (by simp [newRec])]
    rfl
  · rw [← hid0]
    exact Nat.ne_of_lt (hf t0 htmem)
  · rw [← hid0]
    exact deref_of_mem hu htmem
  · exact @List.find?_some _ (fun u => u.mac == m) t0 _ hfind0
  · exact hst.2.2.2.2.mem_iff.mpr (List.mem_cons_of_mem _ htmem)

/-- C10 witness: the theorem applied to the one-record registry `sampleS1`,
re-inserting `macA` with ip 7 (producing `sampleS2`). -/
theorem c10_duplicate_shadow_witness :
    find_term_by_mac jh0 sampleS2 macA = some sampleS1.nextId ∧
    (deref sampleS2 sampleS1.nextId).map (·.ip) = some 7 ∧
    (0 : Nat) ≠ sampleS1.nextId ∧ sampleS1.nextId = 1 :=
  have h := c10_duplicate_shadow jh0 sampleS1 macA 7 10 0 (by decide)
    (by decide) (by decide) (by decide)
  ⟨h.2.1, h.2.2.1, h.2.2.2.1, by decide⟩

theorem find?_eq_some_decomp {l : List Terminal} {mac : Mac} {t : Terminal}
    (h : l.find? (fun u => u.mac == mac) = some t) :
    ∃ pre post, l = pre ++ t :: post ∧
      ∀ u ∈ pre, (u.mac == mac) = false := by
  induction l with
  | nil => simp at h
  | cons v rest ih =>
    by_cases hv : (v.mac == mac) = true
    · rw [@List.find?_cons_of_pos _ (fun u => u.mac == mac) v rest hv,
        Option.some_inj] at h
      subst h
      exact ⟨[], rest, rfl, by simp⟩
    · rw [@List.find?_cons_of_neg _ (fun u => u.mac == mac) v rest hv] at h
      obtain ⟨pre, post, rfl, hpre⟩ := ih h
      refine ⟨v :: pre, post, rfl, ?_⟩
      intro u hu
      rcases List.mem_cons.mp hu with rfl | hu2
      · simpa using hv
      · exact hpre u hu2

/-- C5 (amended): `find_term_by_mac` returns the pointer of the live first
matching record (a reference into the registry, not a copy): dereferencing
it yields a record with the looked-up mac, and after any subsequent
`term_mark` on that mac the same held pointer dereferences to the mutated
record — the caller's reference persists and observes registry writes. -/
theorem c5_find_returns_live_ref (jh : Nat → Nat) (s : TermState) (mac : Mac)
    (p : Nat) (hu : IdsUnique s) (hp : find_term_by_mac jh s mac = some p) :
    ∃ t, deref s p = some t ∧ (t.mac == mac) = true ∧
      ∀ a, deref (term_mark jh s mac a).1 p =
        some { t with flags := setAuthedFlags t.flags a } := by
  have hp2 := hp
  rw [find_term_by_mac, Option.map_eq_some'] at hp2
  obtain ⟨t, hfind, hid⟩ := hp2
  have htmem : t ∈ allTerms s :=
    mem_allTerms_of_mem_bucket (List.mem_of_find?_eq_some hfind)
  have hder : deref s p = some t := by
    rw [← hid]
    exact deref_of_mem hu htmem
  have hmac := @List.find?_some _ (fun u => u.mac == mac) t _ hfind
  refine ⟨t, hder, hmac, ?_⟩
  intro a
  obtain ⟨pre, post, hb, hpre⟩ := find?_eq_some_decomp hfind
  have hbB : bucketOf s (term_mac_hash jh mac) = pre ++ t :: post := hb
  have hlt : term_mac_hash jh mac < s.table.length := by
    apply lt_length_of_getD_ne_nil
    intro he
    have h2 : ([] : List Terminal) = pre ++ t :: post := by
      rw [← he]
      exact hbB
    exact absurd h2.symm (by simp)
  have hmk := @markInBucket_of_decomp pre post t mac a hpre hmac
  simp only [term_mark]
  rw [hbB, hmk]
  dsimp only
  have hbD : s.table.getD (term_mac_hash jh mac) [] = pre ++ t :: post := hbB
  have hflat := set_flatten_decomp s.table (term_mac_hash jh mac)
    (pre ++ { t with flags := setAuthedFlags t.flags a } :: post) hlt
  have hflat0 := flatten_decomp s.table (term_mac_hash jh mac) hlt
  rw [hbD] at hflat0
  have hids : allIds
      { s with
        table :=
          s.table.set (term_mac_hash jh mac)
            (pre ++ { t with flags := setAuthedFlags t.flags a } :: post) } =
      allIds s := by
    unfold allIds allTerms
    dsimp only
    rw [hflat, hflat0]
    simp [List.map_append]
  have hu2 : IdsUnique
      { s with
        table :=
          s.table.set (term_mac_hash jh mac)
            (pre ++ { t with flags := setAuthedFlags t.flags a } :: post) } := by
    unfold IdsUnique
    rw [hids]
    exact hu
  have hmem2 : ({ t with flags := setAuthedFlags t.flags a } : Terminal) ∈
      allTerms
        { s with
          table :=
            s.table.set (term_mac_hash jh mac)
              (pre ++ { t with flags := setAuthedFlags t.flags a } :: post) } := by
    unfold allTerms
    dsimp only
    rw [hflat]
    simp
  have hd2 := deref_of_mem hu2 hmem2
  rw [← hid]
  exact hd2

/-- C5 witness: the amended theorem on the one-record registry `sampleS1`:
the returned pointer dereferences to the live record, and after
`term_mark` the same pointer shows the rewritten flags. -/
theorem c5_find_returns_live_ref_witness :
    deref sampleS1 0 = some tA1 ∧
    deref (term_mark jh0 sampleS1 macA TERM_AUTHED).1 0 =
      some { tA1 with flags := setAuthedFlags tA1.flags TERM_AUTHED } := by
  obtain ⟨t, ht, hmac, hall⟩ :=
    c5_find_returns_live_ref jh0 sampleS1 macA 0 (by decide) (by decide)
  have h0 : deref sampleS1 0 = some tA1 := by decide
  rw [h0, Option.some_inj] at ht
  rw [← ht] at hall
  exact ⟨h0, hall TERM_AUTHED⟩

/-- C5, counterexample: `find_term_by_mac` does not return a snapshot copy.
In `sampleS1` the lookup of `macA` returns pointer 0, whose referent then
has `flags = 0`; after the registry mutation `term_mark_authed` (producing
`sampleAuthed`), the same held pointer dereferences to the mutated record
(`flags = TERM_AUTHED`) — a live reference into the registry that persists
past the lock-scoped read, exactly what the claim says cannot happen. -/
theorem c5_live_reference_cex :
    find_term_by_mac jh0 sampleS1 macA = some 0 ∧
    deref sampleS1 0 = some tA1 ∧
    deref sampleAuthed 0 = some tA1auth ∧
    tA1auth ≠ tA1 := by decide

end TermManage
